import Mathlib

/-!
Verification of the Advent-of-Code leaderboard scanner.

The definitions below are a shallow embedding of the Go source
(`main.go`): the data model (`completionPartData`, `completionDayData`,
`memberData`, `leaderboardData`), the ranking calculator
(`getCompletionRank`), the star counter (`getTotalStars`), the ordinal
renderer (`getOrdinal`), the snapshot-diff loop of `refresh`
(`refreshDiff` and the surrounding cycle control flow), and the parser
(`buildLeaderboard`, modelled over a JSON value tree).

Go operations that can panic (out-of-range indexing, nil dereference)
are embedded as `Option`/`Except` failures.
-/

set_option autoImplicit false

namespace AocScanner

/-- One part-completion record (`completionPartData` in the source):
`get_star_ts` and `star_index`. -/
structure completionPartData where
  gotStarAt : Int := 0
  starIndex : Int := 0
deriving DecidableEq, Repr

/-- One day slot (`completionDayData`): two nullable part records. -/
structure completionDayData where
  part1 : Option completionPartData := none
  part2 : Option completionPartData := none
deriving DecidableEq, Repr

/-- One leaderboard member (`memberData`). -/
structure memberData where
  name : String := ""
  completionDayLevel : List completionDayData := []
  id : Int := 0
  localScore : Int := 0
  globalScore : Int := 0
  stars : Int := 0
  lastStarTimestamp : Int := 0
deriving DecidableEq, Repr

/-- A parsed leaderboard snapshot (`leaderboardData`). -/
structure leaderboardData where
  event : String := ""
  members : List memberData := []
  ownerId : Int := 0
deriving DecidableEq, Repr

/-- `arrayFind` from the source: first element satisfying the predicate. -/
def arrayFind {α : Type} : List α → (α → Bool) → Option α
  | [], _ => none
  | v :: rest, pred => if pred v then some v else arrayFind rest pred

/-- The ordinal-suffix table (`ordinals` in the source). -/
def ordinals : List String := ["th", "st", "nd", "rd"]

/-- `getOrdinal` from the source: suffix for a 1-based rank.  The source
indexes `ordinals` only under a length guard, so the in-bounds access is
embedded with `List.getD` (the default is unreachable). -/
def getOrdinal (n : Nat) : String :=
  let v := n % 100
  if v ≥ 20 ∧ ordinals.length > (v - 20) % 10 then
    ordinals.getD ((v - 20) % 10) ""
  else if ordinals.length > v then
    ordinals.getD v ""
  else
    ordinals.getD 0 ""

/-- The English ordinal rule as worded by the spec: last two digits 11-13
give "th"; otherwise last digit 1 gives "st", 2 "nd", 3 "rd", else "th". -/
def englishOrdinalSuffix (n : Nat) : String :=
  if 11 ≤ n % 100 ∧ n % 100 ≤ 13 then "th"
  else if n % 10 = 1 then "st"
  else if n % 10 = 2 then "nd"
  else if n % 10 = 3 then "rd"
  else "th"

/-- The part record selected by a Go-style part number: the source treats
`partNum == 1` as Part1 and anything else as Part2. -/
def partFor (day : completionDayData) (partNum : Nat) : Option completionPartData :=
  if partNum = 1 then day.part1 else day.part2

/-- The member loop of `getCompletionRank`: count members other than the
subject whose record for the day/part exists with a strictly earlier
timestamp.  Indexing a member's day table out of range is a Go panic,
embedded as `none`. -/
def rankCount (members : List memberData) (inMemberId : Int) (dayIdx : Nat)
    (partNum : Nat) (targetTime : Int) : Option Nat :=
  match members with
  | [] => some 0
  | member :: rest =>
    if member.id = inMemberId then rankCount rest inMemberId dayIdx partNum targetTime
    else
      match member.completionDayLevel[dayIdx]? with
      | none => none
      | some day =>
        match partFor day partNum with
        | none => rankCount rest inMemberId dayIdx partNum targetTime
        | some part =>
          if part.gotStarAt < targetTime then
            (rankCount rest inMemberId dayIdx partNum targetTime).map (· + 1)
          else
            rankCount rest inMemberId dayIdx partNum targetTime

/-- `getCompletionRank` from the source.  The subject's Part1 record is
dereferenced before the part switch (exactly as in the Go code), so it
must be present even for a Part2 query. -/
def getCompletionRank (lb : leaderboardData) (inMember : memberData)
    (dayIdx : Nat) (partNum : Nat) : Option Nat :=
  match inMember.completionDayLevel[dayIdx]? with
  | none => none
  | some day =>
    match day.part1 with
    | none => none
    | some part1Rec =>
      match (if partNum = 1 then some part1Rec.gotStarAt
             else day.part2.map (fun p => p.gotStarAt)) with
      | none => none
      | some targetTime => rankCount lb.members inMember.id dayIdx partNum targetTime

/-- The spec's description of who is counted by the ranking calculator: a
member with a different id whose record for the same day and part exists
with a strictly smaller completion timestamp. -/
def aheadOf (dayIdx partNum : Nat) (targetTime : Int) (subjectId : Int)
    (m : memberData) : Bool :=
  m.id != subjectId &&
    (match m.completionDayLevel[dayIdx]? with
     | some day =>
       match partFor day partNum with
       | some p => decide (p.gotStarAt < targetTime)
       | none => false
     | none => false)

/-- The day loop of `getTotalStars`, carried out with an explicit day
index so the `skipPart2OfDay` comparison matches the source. -/
def getTotalStarsAux : List completionDayData → Int → Int → Nat
  | [], _, _ => 0
  | day :: rest, dayIdx, skip =>
    ((if day.part1.isSome then 1 else 0) +
      (if day.part2.isSome && skip != dayIdx then 1 else 0)) +
      getTotalStarsAux rest (dayIdx + 1) skip

/-- `getTotalStars` from the source: populated parts across the member's
day table, optionally skipping Part2 of one day. -/
def getTotalStars (member : memberData) (skipPart2OfDay : Int) : Nat :=
  getTotalStarsAux member.completionDayLevel 0 skipPart2OfDay

/-- The spec's star count: the number of populated Part1 and Part2
records across the member's whole current table. -/
def starCount (member : memberData) : Nat :=
  member.completionDayLevel.countP (fun d => d.part1.isSome) +
    member.completionDayLevel.countP (fun d => d.part2.isSome)

/-- Part2 half of the star count with one day index excluded, used to
relate `getTotalStars` to `starCount`. -/
def countPart2Except : List completionDayData → Int → Int → Nat
  | [], _, _ => 0
  | day :: rest, dayIdx, skip =>
    (if day.part2.isSome && skip != dayIdx then 1 else 0) +
      countPart2Except rest (dayIdx + 1) skip

/-- A semantic notification event: the data interpolated into the text
that `refresh` posts to the webhook for one notification. -/
inductive Event where
  | newMember (memberId : Int) (name : String)
  | partCompleted (memberId : Int) (name : String) (dayIdx : Nat) (partNum : Nat)
      (rank : Nat) (totalStars : Nat)
deriving DecidableEq, Repr

/-- The id of the member an event reports about. -/
def Event.ownerId : Event → Int
  | .newMember i _ => i
  | .partCompleted i _ _ _ _ _ => i

/-- Whether an event is a new-member notification. -/
def Event.isNewMemberEvent : Event → Bool
  | .newMember _ _ => true
  | _ => false

/-- Whether an event is a part-completion notification. -/
def Event.isPartCompletedEvent : Event → Bool
  | .partCompleted _ _ _ _ _ _ => true
  | _ => false

/-- The closure `s` inside `refresh`: build the part-completed
notification for one day/part, skipping Part2 of the day in the star
count when reporting Part1.  Failure of the rank computation is a Go
panic, embedded as `none`. -/
def sEvent (lb : leaderboardData) (member : memberData)
    (dayIdx partNum : Nat) : Option Event :=
  let skipPart2OfDay : Int := if partNum = 1 then (dayIdx : Int) else -1
  let totalStars := getTotalStars member skipPart2OfDay
  match getCompletionRank lb member dayIdx partNum with
  | none => none
  | some numAhead =>
    some (.partCompleted member.id member.name dayIdx partNum (numAhead + 1) totalStars)

/-- One transition check of `refresh` for one day slot: the source's
`if day.PartN != nil && lastMember.CompletionDayLevel[dayIdx].PartN == nil`
guard followed by the `s` call.  The previous member's slot is only
indexed when the current part is populated, mirroring the source's
short-circuit evaluation; out-of-range indexing is a Go panic (`none`). -/
def partEvents (lb : leaderboardData) (lastMember member : memberData)
    (dayIdx partNum : Nat) (currPart : Option completionPartData) :
    Option (List Event) :=
  if currPart.isSome then
    match lastMember.completionDayLevel[dayIdx]? with
    | none => none
    | some lastDay =>
      if partFor lastDay partNum = none then
        (sEvent lb member dayIdx partNum).map (fun e => [e])
      else some []
  else some []

/-- The two transition checks of `refresh` for one day slot of one
member, Part1 first. -/
def dayEvents (lb : leaderboardData) (lastMember member : memberData)
    (day : completionDayData) (dayIdx : Nat) : Option (List Event) :=
  match partEvents lb lastMember member dayIdx 1 day.part1,
      partEvents lb lastMember member dayIdx 2 day.part2 with
  | some l1, some l2 => some (l1 ++ l2)
  | _, _ => none

/-- The per-member day loop of `refresh`, over the current member's day
table starting at a given day index. -/
def diffDaysAux (lb : leaderboardData) (lastMember member : memberData) :
    List completionDayData → Nat → Option (List Event)
  | [], _ => some []
  | day :: rest, dayIdx =>
    match dayEvents lb lastMember member day dayIdx,
        diffDaysAux lb lastMember member rest (dayIdx + 1) with
    | some es, some restEs => some (es ++ restEs)
    | _, _ => none

/-- All part-completion events `refresh` emits for one member that was
already present in the previous snapshot. -/
def diffMember (lb : leaderboardData) (lastMember member : memberData) :
    Option (List Event) :=
  diffDaysAux lb lastMember member member.completionDayLevel 0

/-- The member loop of `refresh` over the current snapshot's members:
a member absent from the previous snapshot yields one new-member event
and is not diffed; a member present in both is diffed day by day. -/
def refreshDiffAux (lastLb lb : leaderboardData) :
    List memberData → Option (List Event)
  | [] => some []
  | member :: rest =>
    match (match arrayFind lastLb.members (fun m => m.id == member.id) with
           | none => some [Event.newMember member.id member.name]
           | some lastMember => diffMember lb lastMember member),
        refreshDiffAux lastLb lb rest with
    | some es, some restEs => some (es ++ restEs)
    | _, _ => none

/-- The snapshot diff performed by `refresh` once both the cached and the
downloaded bodies have been parsed. -/
def refreshDiff (lastLb lb : leaderboardData) : Option (List Event) :=
  refreshDiffAux lastLb lb lb.members

/-- Whether `refresh`'s transition check fires for a member at one
day/part: the part is populated in the current snapshot's slot and empty
in the previous snapshot's slot. -/
def emittedAtB (member lastMember : memberData) (dayIdx partNum : Nat) : Bool :=
  match member.completionDayLevel[dayIdx]?, lastMember.completionDayLevel[dayIdx]? with
  | some day, some lastDay => (partFor day partNum).isSome && (partFor lastDay partNum).isNone
  | _, _ => false

/-- What the member loop of `refresh` contributes for one current
member: a single new-member event when the id is absent from the
previous snapshot, otherwise the day-by-day transition events. -/
def memberContrib (lastLb lb : leaderboardData) (m : memberData) (e : Event) : Prop :=
  match arrayFind lastLb.members (fun x => x.id == m.id) with
  | none => e = Event.newMember m.id m.name
  | some lastMember => ∃ dIdx pn, dIdx < 25 ∧ (pn = 1 ∨ pn = 2) ∧
      emittedAtB m lastMember dIdx pn = true ∧ sEvent lb m dIdx pn = some e

/-- Every member of a snapshot has the full 25-slot day table. -/
def Snapshot25 (lb : leaderboardData) : Prop :=
  ∀ m ∈ lb.members, m.completionDayLevel.length = 25

/-- The API invariant the source relies on: Part2 of a day is never
completed without Part1 of the same day. -/
def PartInvariant (lb : leaderboardData) : Prop :=
  ∀ m ∈ lb.members, ∀ d ∈ m.completionDayLevel,
    d.part2.isSome = true → d.part1.isSome = true

/-- Member ids are unique within a snapshot. -/
def UniqueIds (lb : leaderboardData) : Prop :=
  (lb.members.map memberData.id).Nodup

instance (lb : leaderboardData) : Decidable (Snapshot25 lb) :=
  inferInstanceAs (Decidable (∀ m ∈ lb.members, m.completionDayLevel.length = 25))

instance (lb : leaderboardData) : Decidable (PartInvariant lb) :=
  inferInstanceAs (Decidable (∀ m ∈ lb.members, ∀ d ∈ m.completionDayLevel,
    d.part2.isSome = true → d.part1.isSome = true))

instance (lb : leaderboardData) : Decidable (UniqueIds lb) :=
  inferInstanceAs (Decidable (lb.members.map memberData.id).Nodup)

/-- The events one `refresh` cycle emits after a successful download,
as a function of the cached previous raw body, the downloaded raw body,
and the parser: the source returns early when no previous body is
cached, when the cached body fails to parse, or when the downloaded body
fails to parse. -/
def refreshCycleEvents (build : String → Except String leaderboardData)
    (lastBody currBody : String) : List Event :=
  if lastBody.length = 0 then []
  else
    match build lastBody with
    | .error _ => []
    | .ok lastLeaderboard =>
      match build currBody with
      | .error _ => []
      | .ok leaderboard => (refreshDiff lastLeaderboard leaderboard).getD []

/-- One observable side effect of a `refresh` cycle, in program order. -/
inductive Action where
  | saveCache (body : String)
  | parseCached (body : String)
  | parseDownloaded (body : String)
  | notify (e : Event)
deriving DecidableEq, Repr

/-- The side effects of one `refresh` cycle after a successful download,
in the order the source performs them: the downloaded body is written to
the cache first, then the cached body is parsed (when present), then the
downloaded body is parsed, then notifications are sent. -/
def refreshTrace (build : String → Except String leaderboardData)
    (lastBody currBody : String) : List Action :=
  Action.saveCache currBody ::
    (if lastBody.length = 0 then []
     else
       Action.parseCached lastBody ::
         (match build lastBody with
          | .error _ => []
          | .ok lastLeaderboard =>
            Action.parseDownloaded currBody ::
              (match build currBody with
               | .error _ => []
               | .ok leaderboard =>
                 ((refreshDiff lastLeaderboard leaderboard).getD []).map Action.notify)))

/-- The in-memory state the daemonized scanner carries between cycles:
the `lastBody` captured by the `refresh` closure. -/
structure ScannerState where
  lastBody : String
deriving DecidableEq, Repr

/-- One daemonized `refresh` invocation with a successful download: the
deferred assignment registered right after the download replaces
`lastBody` with the downloaded body when the cycle ends, on every path;
the events are computed from the old cached body. -/
def refreshDaemonStep (build : String → Except String leaderboardData)
    (st : ScannerState) (currBody : String) : ScannerState × List Event :=
  ({ lastBody := currBody }, refreshCycleEvents build st.lastBody currBody)

/-- A JSON value tree: the shape of a raw document once well-formed.
Numbers are restricted to integers, which covers every field of the
leaderboard schema. -/
inductive Json where
  | null
  | bool (b : Bool)
  | num (n : Int)
  | str (s : String)
  | arr (elems : List Json)
  | obj (fields : List (String × Json))

/-- Field lookup on an object value (first matching key); `none` for any
other kind of value, mirroring fastjson's nil-object no-ops. -/
def jsonGet (j : Json) (key : String) : Option Json :=
  match j with
  | .obj fields => (arrayFind fields (fun kv => kv.fst == key)).map Prod.snd
  | _ => none

/-- A string field extracted Go-style: a missing, null, or wrongly typed
field leaves the zero value. -/
def getStr (j : Json) (key : String) : String :=
  match jsonGet j key with
  | some (.str s) => s
  | _ => ""

/-- An integer field extracted Go-style: a missing, null, or wrongly
typed field leaves the zero value. -/
def getInt (j : Json) (key : String) : Int :=
  match jsonGet j key with
  | some (.num n) => n
  | _ => 0

/-- Whether a string-typed struct field would unmarshal without a type
error: absent and null fields are fine, any non-string value is not. -/
def strFieldOk (j : Json) (key : String) : Bool :=
  match jsonGet j key with
  | none => true
  | some .null => true
  | some (.str _) => true
  | some _ => false

/-- Whether an integer-typed struct field would unmarshal without a type
error. -/
def intFieldOk (j : Json) (key : String) : Bool :=
  match jsonGet j key with
  | none => true
  | some .null => true
  | some (.num _) => true
  | some _ => false

/-- `json.Unmarshal` of the top-level document into `leaderboardData`:
`null` leaves the zero value, a non-object fails, an object fails when a
present field has the wrong type and otherwise fills the tagged fields,
leaving zero values for missing ones (the members field is tagged `-`
and ignored). -/
def unmarshalLeaderboardData (j : Json) : Except String leaderboardData :=
  match j with
  | .null => Except.ok {}
  | .obj _ =>
    if strFieldOk j "event" && intFieldOk j "owner_id" then
      Except.ok { event := getStr j "event", ownerId := getInt j "owner_id" }
    else Except.error "error unmarshaling into leaderboardData"
  | _ => Except.error "error unmarshaling into leaderboardData"

/-- `json.Unmarshal` of one member value, whose error the source
ignores: fields of the wrong type are simply left at their zero values. -/
def unmarshalMemberLoose (j : Json) : memberData :=
  match j with
  | .obj _ =>
    { name := getStr j "name", id := getInt j "id",
      localScore := getInt j "local_score", globalScore := getInt j "global_score",
      stars := getInt j "stars", lastStarTimestamp := getInt j "last_star_ts" }
  | _ => {}

/-- `json.Unmarshal` of one part-completion value, whose error the
source ignores. -/
def unmarshalPartLoose (j : Json) : completionPartData :=
  match j with
  | .obj _ => { gotStarAt := getInt j "get_star_ts", starIndex := getInt j "star_index" }
  | _ => {}

/-- The inner Visit of `buildLeaderboard` over one day value: key "1"
fills Part1, any other key fills Part2; the record pointer is set even
when the record's own unmarshal failed. -/
def buildDay (dayVal : Json) : completionDayData :=
  let fields := match dayVal with
    | .obj fs => fs
    | _ => []
  fields.foldl (fun acc kv =>
    let part := unmarshalPartLoose kv.snd
    if kv.fst == "1" then { acc with part1 := some part }
    else { acc with part2 := some part }) {}

/-- Decimal digits folded into a number; any non-digit character is a
syntax error. -/
def digitsToNat : List Char → Nat → Option Nat
  | [], acc => some acc
  | c :: rest, acc =>
    if c.isDigit then digitsToNat rest (acc * 10 + (c.toNat - 48)) else none

/-- `strconv.Atoi` with the source's ignored error: an optional sign
followed by decimal digits; any non-numeric string yields 0 because the
error (and with it the accompanying value) is discarded. -/
def atoi (s : String) : Int :=
  match s.data with
  | [] => 0
  | '-' :: rest =>
    match digitsToNat rest 0 with
    | some n => -(n : Int)
    | none => 0
  | '+' :: rest =>
    match digitsToNat rest 0 with
    | some n => (n : Int)
    | none => 0
  | _ =>
    match digitsToNat s.data 0 with
    | some n => (n : Int)
    | none => 0

/-- The day-level Visit of `buildLeaderboard`: each day key is converted
with `Atoi` and slot `day-1` of the 25-slot table is overwritten; an
out-of-range index is a Go panic, embedded as an error. -/
def fillDays : List (String × Json) → List completionDayData →
    Except String (List completionDayData)
  | [], table => Except.ok table
  | (key, dayVal) :: rest, table =>
    let idx : Int := atoi key - 1
    if 0 ≤ idx ∧ idx.toNat < table.length then
      fillDays rest (table.set idx.toNat (buildDay dayVal))
    else Except.error "index out of range"

/-- fastjson's `GetObject("completion_day_level")` on one member value:
the day fields when present and an object, else nothing (Visit on a nil
object is a no-op). -/
def completionFieldsOf (memberVal : Json) : List (String × Json) :=
  match jsonGet memberVal "completion_day_level" with
  | some (.obj fields) => fields
  | _ => []

/-- The member-level Visit of `buildLeaderboard`: unmarshal the member
(ignoring errors), reset its day table to 25 empty slots, then fill the
days present in the raw value. -/
def visitMember (memberVal : Json) : Except String memberData :=
  match fillDays (completionFieldsOf memberVal) (List.replicate 25 {}) with
  | .error e => .error e
  | .ok table => .ok { unmarshalMemberLoose memberVal with completionDayLevel := table }

/-- The members Visit of `buildLeaderboard`, appending members in key
order. -/
def visitMembers : List (String × Json) → Except String (List memberData)
  | [] => Except.ok []
  | (_, v) :: rest =>
    match visitMember v with
    | .error e => .error e
    | .ok m =>
      match visitMembers rest with
      | .error e => .error e
      | .ok ms => .ok (m :: ms)

/-- fastjson's `GetObject("members")` on the top-level value. -/
def memberFieldsOf (j : Json) : List (String × Json) :=
  match jsonGet j "members" with
  | some (.obj fields) => fields
  | _ => []

/-- `buildLeaderboard` from the source, over an already-lexed document:
`none` stands for raw bytes that are not well-formed JSON (both parsers
fail on them), otherwise the top level is unmarshalled (failing on shape
errors) and the members collection is visited. -/
def buildLeaderboard (body : Option Json) : Except String leaderboardData :=
  match body with
  | none => Except.error "error parsing string into json"
  | some j =>
    match unmarshalLeaderboardData j with
    | .error e => .error e
    | .ok lb =>
      match visitMembers (memberFieldsOf j) with
      | .error e => .error e
      | .ok ms => .ok { lb with members := ms }

/-! Concrete inputs used by the witnesses. -/

/-- A 25-slot table with no completions. -/
def emptyTable : List completionDayData := List.replicate 25 {}

/-- A completion record at a given timestamp. -/
def recAt (t : Int) : completionPartData := { gotStarAt := t, starIndex := 1 }

/-- A day slot with only Part1 completed at a given timestamp. -/
def day5P1 (t : Int) : completionDayData := { part1 := some (recAt t), part2 := none }

/-- A 25-slot table with day 5 (index 4) Part1 completed at `t`. -/
def tableP1 (t : Int) : List completionDayData := emptyTable.set 4 (day5P1 t)

/-- Member A: day 5 Part1 at time 100. -/
def memberAW : memberData := { name := "A", id := 1, completionDayLevel := tableP1 100 }

/-- Member B: day 5 Part1 at time 110. -/
def memberBW : memberData := { name := "B", id := 2, completionDayLevel := tableP1 110 }

/-- A two-member snapshot where A and B completed day 5 Part1 at times
100 and 110. -/
def lbW : leaderboardData := { event := "2023", members := [memberAW, memberBW], ownerId := 1 }

/-- Member A before any completions. -/
def memberAPrev : memberData := { name := "A", id := 1, completionDayLevel := emptyTable }

/-- A previous snapshot containing only the empty member A. -/
def lbPrevW : leaderboardData := { event := "2023", members := [memberAPrev], ownerId := 1 }

/-- A day slot with both parts completed. -/
def day5Both : completionDayData :=
  { part1 := some (recAt 100), part2 := some (recAt 200) }

/-- Member A after completing both parts of day 5. -/
def memberACurr : memberData :=
  { name := "A", id := 1, completionDayLevel := emptyTable.set 4 day5Both }

/-- A current snapshot where A has completed both parts of day 5. -/
def lbCurrW : leaderboardData := { event := "2023", members := [memberACurr], ownerId := 1 }

/-- A member with an empty table, for the three-member first-run scenario. -/
def plainMember (i : Int) (nm : String) : memberData :=
  { name := nm, id := i, completionDayLevel := emptyTable }

/-- A current snapshot with three members. -/
def lbW3 : leaderboardData :=
  { event := "2023", members := [plainMember 1 "a", plainMember 2 "b", plainMember 3 "c"],
    ownerId := 1 }

/-- A parser stub that accepts every body, for the first-run scenario. -/
def buildW3 : String → Except String leaderboardData := fun _ => Except.ok lbW3

/-- A parser stub that rejects every body. -/
def buildErr : String → Except String leaderboardData := fun _ => Except.error "parse error"

/-- A parser stub for the aborted-cycle scenario: the bodies downloaded
in cycles one and two both parse to `lbCurrW`, any other body fails. -/
def buildTwo : String → Except String leaderboardData := fun s =>
  if s = "body1" then Except.ok lbCurrW
  else if s = "body2" then Except.ok lbCurrW
  else Except.error "parse error"

/-- A well-formed raw leaderboard document with one member who completed
both parts of day 3. -/
def jW : Json :=
  Json.obj [("event", Json.str "2023"), ("owner_id", Json.num 7),
    ("members", Json.obj [("123",
      Json.obj [("name", Json.str "A"), ("id", Json.num 123), ("stars", Json.num 2),
        ("completion_day_level", Json.obj [("3",
          Json.obj [("1", Json.obj [("get_star_ts", Json.num 100), ("star_index", Json.num 0)]),
            ("2", Json.obj [("get_star_ts", Json.num 200), ("star_index", Json.num 1)])])])])])]

/-- The day slot `jW` describes for day 3. -/
def dayW7 : completionDayData :=
  { part1 := some { gotStarAt := 100, starIndex := 0 },
    part2 := some { gotStarAt := 200, starIndex := 1 } }

/-- The member parsed from `jW`. -/
def memberW7 : memberData :=
  { name := "A", id := 123, stars := 2, completionDayLevel := emptyTable.set 2 dayW7 }

/-- The snapshot parsed from `jW`. -/
def lbW7 : leaderboardData := { event := "2023", members := [memberW7], ownerId := 7 }

end AocScanner

namespace AocScanner

theorem getOrdinal_mod_100 (n : Nat) : getOrdinal n = getOrdinal (n % 100) := by
  unfold getOrdinal
  rw [Nat.mod_mod_of_dvd n (by norm_num : (100 : Nat) ∣ 100)]

theorem englishOrdinalSuffix_mod_100 (n : Nat) :
    englishOrdinalSuffix n = englishOrdinalSuffix (n % 100) := by
  unfold englishOrdinalSuffix
  rw [Nat.mod_mod_of_dvd n (by norm_num : (100 : Nat) ∣ 100),
    Nat.mod_mod_of_dvd n (by norm_num : (10 : Nat) ∣ 100)]

theorem getOrdinal_eq_english_lt_100 :
    ∀ v : Nat, v < 100 → getOrdinal v = englishOrdinalSuffix v := by decide

/-- Claim C8: for every positive rank `n`, the suffix computed by
`getOrdinal` follows the English ordinal rule (last two digits 11-13 give
"th"; otherwise last digit 1 gives "st", 2 "nd", 3 "rd", else "th"). -/
theorem claim_C8_ordinal (n : Nat) (_hpos : 0 < n) :
    getOrdinal n = englishOrdinalSuffix n := by
  rw [getOrdinal_mod_100, englishOrdinalSuffix_mod_100]
  exact getOrdinal_eq_english_lt_100 (n % 100) (Nat.mod_lt n (by norm_num))

/-- Witness for C8 at the inputs listed by the spec. -/
theorem claim_C8_ordinal_witness :
    getOrdinal 1 = englishOrdinalSuffix 1 ∧ getOrdinal 21 = englishOrdinalSuffix 21 ∧
      getOrdinal 101 = englishOrdinalSuffix 101 ∧ englishOrdinalSuffix 21 = "st" :=
  ⟨claim_C8_ordinal 1 (by decide), claim_C8_ordinal 21 (by decide),
    claim_C8_ordinal 101 (by decide), by decide⟩

theorem getElemOpt_exists {α : Type} {l : List α} {i : Nat} (h : i < l.length) :
    ∃ a, l[i]? = some a := ⟨l[i], List.getElem?_eq_getElem h⟩

/-! Lemmas about `arrayFind`. -/

theorem arrayFind_mem {α : Type} {l : List α} {p : α → Bool} {x : α}
    (h : arrayFind l p = some x) : x ∈ l := by
  induction l with
  | nil => simp [arrayFind] at h
  | cons a t ih =>
    by_cases hp : p a = true
    · simp only [arrayFind, hp, if_true, Option.some.injEq] at h
      simp [h]
    · simp only [arrayFind, hp, if_false] at h
      exact List.mem_cons_of_mem a (ih h)

theorem arrayFind_pred {α : Type} {l : List α} {p : α → Bool} {x : α}
    (h : arrayFind l p = some x) : p x = true := by
  induction l with
  | nil => simp [arrayFind] at h
  | cons a t ih =>
    by_cases hp : p a = true
    · simp only [arrayFind, hp, if_true, Option.some.injEq] at h
      exact h ▸ hp
    · simp only [arrayFind, hp, if_false] at h
      exact ih h

theorem arrayFind_eq_none {α : Type} {l : List α} {p : α → Bool}
    (h : arrayFind l p = none) : ∀ x ∈ l, p x = false := by
  induction l with
  | nil => simp
  | cons a t ih =>
    by_cases hp : p a = true
    · simp [arrayFind, hp] at h
    · simp only [arrayFind, hp, if_false] at h
      intro x hx
      rcases List.mem_cons.mp hx with rfl | hx
      · exact Bool.not_eq_true _ ▸ hp
      · exact ih h x hx

/-- Under unique ids, looking up a present member's id finds that very
member. -/
theorem arrayFind_self {l : List memberData} {m : memberData}
    (hnodup : (l.map memberData.id).Nodup) (hmem : m ∈ l) :
    arrayFind l (fun x => x.id == m.id) = some m := by
  induction l with
  | nil => simp at hmem
  | cons a t ih =>
    rcases List.mem_cons.mp hmem with rfl | hmt
    · simp [arrayFind]
    · have hne : a.id ≠ m.id := by
        intro he
        have : a.id ∈ t.map memberData.id := he ▸ List.mem_map_of_mem memberData.id hmt
        exact (List.nodup_cons.mp hnodup).1 this
      simp only [arrayFind, beq_iff_eq, hne, if_false]
      exact ih (List.nodup_cons.mp hnodup).2 hmt

/-! The ranking calculator. -/

theorem rankCount_eq_countP (members : List memberData) (sid : Int)
    (dayIdx partNum : Nat) (t : Int)
    (hlen : ∀ m ∈ members, dayIdx < m.completionDayLevel.length) :
    rankCount members sid dayIdx partNum t =
      some (members.countP (aheadOf dayIdx partNum t sid)) := by
  induction members with
  | nil => simp [rankCount]
  | cons m rest ih =>
    have hm : dayIdx < m.completionDayLevel.length := hlen m (List.mem_cons_self m rest)
    have hrest := ih (fun x hx => hlen x (List.mem_cons_of_mem m hx))
    obtain ⟨day, hslot⟩ := getElemOpt_exists hm
    by_cases hid : m.id = sid
    · simp [rankCount, hid, hrest, List.countP_cons, aheadOf]
    · cases hpf : partFor day partNum with
      | none => simp [rankCount, hid, hslot, hpf, hrest, List.countP_cons, aheadOf]
      | some p =>
        by_cases hlt : p.gotStarAt < t
        · simp [rankCount, hid, hslot, hpf, hlt, hrest, List.countP_cons, aheadOf,
            Nat.add_comm]
        · simp [rankCount, hid, hslot, hpf, hlt, hrest, List.countP_cons, aheadOf]

theorem rankCount_isSome (members : List memberData) (sid : Int)
    (dayIdx partNum : Nat) (t : Int)
    (hlen : ∀ m ∈ members, dayIdx < m.completionDayLevel.length) :
    (rankCount members sid dayIdx partNum t).isSome := by
  rw [rankCount_eq_countP members sid dayIdx partNum t hlen]
  rfl

/-- Claim C1: for a subject with the queried part present, the rank
value computed by `getCompletionRank` is the number of other members
(different id) whose record for the same day and part exists with a
strictly smaller timestamp, and the emitted notification reports that
count plus one as the 1-based rank. -/
theorem claim_C1_completion_rank (lb : leaderboardData) (subject : memberData)
    (dayIdx partNum : Nat) (day : completionDayData) (p1 target : completionPartData)
    (_hsub : subject ∈ lb.members)
    (hlen : Snapshot25 lb)
    (hday : dayIdx < 25)
    (hpart : partNum = 1 ∨ partNum = 2)
    (hslot : subject.completionDayLevel[dayIdx]? = some day)
    (hp1 : day.part1 = some p1)
    (htarget : partFor day partNum = some target) :
    getCompletionRank lb subject dayIdx partNum =
      some (lb.members.countP (aheadOf dayIdx partNum target.gotStarAt subject.id)) ∧
    sEvent lb subject dayIdx partNum =
      some (Event.partCompleted subject.id subject.name dayIdx partNum
        (lb.members.countP (aheadOf dayIdx partNum target.gotStarAt subject.id) + 1)
        (getTotalStars subject (if partNum = 1 then (dayIdx : Int) else -1))) := by
  have hlens : ∀ m ∈ lb.members, dayIdx < m.completionDayLevel.length := by
    intro m hm
    rw [hlen m hm]
    exact hday
  have hcount := rankCount_eq_countP lb.members subject.id dayIdx partNum
    target.gotStarAt hlens
  have hmain : getCompletionRank lb subject dayIdx partNum =
      some (lb.members.countP (aheadOf dayIdx partNum target.gotStarAt subject.id)) := by
    rcases hpart with rfl | rfl
    · have htg : target = p1 := by
        rw [partFor, if_pos rfl, hp1] at htarget
        exact (Option.some.injEq _ _ ▸ htarget).symm
      subst htg
      simp [getCompletionRank, hslot, hp1, hcount]
    · have htg : day.part2 = some target := by
        rw [partFor] at htarget
        simpa using htarget
      simp [getCompletionRank, hslot, hp1, htg, hcount]
  refine ⟨hmain, ?_⟩
  simp [sEvent, hmain]

/-- Witness for C1: the spec's scenario where two members complete day 5
Part1 at times 100 and 110; the counts are 0 and 1 and the reported
ranks 1 and 2. -/
theorem claim_C1_completion_rank_witness :
    getCompletionRank lbW memberAW 4 1 = some 0 ∧
      sEvent lbW memberAW 4 1 = some (Event.partCompleted 1 "A" 4 1 1 1) ∧
      getCompletionRank lbW memberBW 4 1 = some 1 ∧
      sEvent lbW memberBW 4 1 = some (Event.partCompleted 2 "B" 4 1 2 1) := by
  have hA := claim_C1_completion_rank lbW memberAW 4 1 (day5P1 100) (recAt 100) (recAt 100)
    (by decide) (by decide) (by decide) (Or.inl rfl) (by decide) (by decide) (by decide)
  have hB := claim_C1_completion_rank lbW memberBW 4 1 (day5P1 110) (recAt 110) (recAt 110)
    (by decide) (by decide) (by decide) (Or.inl rfl) (by decide) (by decide) (by decide)
  refine ⟨?_, ?_, ?_, ?_⟩
  · rw [hA.1]; decide
  · rw [hA.2]; decide
  · rw [hB.1]; decide
  · rw [hB.2]; decide

/-! The star counter. -/

theorem getTotalStarsAux_eq (days : List completionDayData) (dayIdx skip : Int) :
    getTotalStarsAux days dayIdx skip =
      days.countP (fun d => d.part1.isSome) + countPart2Except days dayIdx skip := by
  induction days generalizing dayIdx with
  | nil => simp [getTotalStarsAux, countPart2Except]
  | cons d rest ih =>
    simp only [getTotalStarsAux, countPart2Except, List.countP_cons, ih (dayIdx + 1)]
    omega

theorem countPart2Except_all (days : List completionDayData) (dayIdx skip : Int)
    (h : skip < dayIdx) :
    countPart2Except days dayIdx skip = days.countP (fun d => d.part2.isSome) := by
  induction days generalizing dayIdx with
  | nil => simp [countPart2Except]
  | cons d rest ih =>
    have hbne : (skip != dayIdx) = true := bne_iff_ne.mpr (ne_of_lt h)
    simp only [countPart2Except, List.countP_cons, ih (dayIdx + 1) (by omega),
      hbne, Bool.and_true]
    omega

theorem countPart2Except_skip (days : List completionDayData) (dayIdx skip : Int)
    (j : Nat) (day : completionDayData)
    (hj : days[j]? = some day) (hskip : skip = dayIdx + j) (hp2 : day.part2.isSome = true) :
    countPart2Except days dayIdx skip + 1 = days.countP (fun d => d.part2.isSome) := by
  induction days generalizing dayIdx j with
  | nil => simp at hj
  | cons d rest ih =>
    cases j with
    | zero =>
      have hd : d = day := by simpa using hj
      subst hd
      have hskip0 : skip = dayIdx := by omega
      subst hskip0
      simp [countPart2Except, List.countP_cons,
        countPart2Except_all rest (skip + 1) skip (by omega), hp2]
    | succ j' =>
      have hj' : rest[j']? = some day := by simpa using hj
      have hbne : (skip != dayIdx) = true := bne_iff_ne.mpr (by omega)
      have hrec := ih (dayIdx + 1) j' hj' (by omega)
      simp only [countPart2Except, List.countP_cons, hbne, Bool.and_true]
      omega

theorem countPart2Except_absent (days : List completionDayData) (dayIdx skip : Int)
    (h : ∀ (j : Nat) (day : completionDayData),
      days[j]? = some day → skip = dayIdx + j → day.part2.isSome = false) :
    countPart2Except days dayIdx skip = days.countP (fun d => d.part2.isSome) := by
  induction days generalizing dayIdx with
  | nil => simp [countPart2Except]
  | cons d rest ih =>
    have hrec := ih (dayIdx + 1) (fun j day hj hs => h (j + 1) day (by simpa using hj) (by omega))
    by_cases hdi : skip = dayIdx
    · have hd2 : d.part2.isSome = false := h 0 d (by simp) (by omega)
      simp only [countPart2Except, List.countP_cons, hrec, hd2, Bool.false_and, if_false]
      omega
    · have hbne : (skip != dayIdx) = true := bne_iff_ne.mpr hdi
      simp only [countPart2Except, List.countP_cons, hrec, hbne, Bool.and_true]
      omega

theorem getTotalStars_no_skip (member : memberData) :
    getTotalStars member (-1) = starCount member := by
  unfold getTotalStars starCount
  rw [getTotalStarsAux_eq, countPart2Except_all _ 0 (-1) (by omega)]

theorem getTotalStars_skip_some (member : memberData) (D : Nat) (day : completionDayData)
    (hslot : member.completionDayLevel[D]? = some day) (hp2 : day.part2.isSome = true) :
    getTotalStars member (D : Int) + 1 = starCount member := by
  unfold getTotalStars starCount
  rw [getTotalStarsAux_eq]
  have := countPart2Except_skip member.completionDayLevel 0 (D : Int) D day hslot
    (by omega) hp2
  omega

theorem getTotalStars_skip_absent (member : memberData) (D : Nat)
    (h : ∀ day, member.completionDayLevel[D]? = some day → day.part2.isSome = false) :
    getTotalStars member (D : Int) = starCount member := by
  unfold getTotalStars starCount
  rw [getTotalStarsAux_eq, countPart2Except_absent _ 0 (D : Int) ?_]
  intro j day hj hs
  have hDj : D = j := by omega
  exact h day (hDj ▸ hj)

/-! The notification builder `sEvent`. -/

theorem sEvent_eq_partCompleted (lb : leaderboardData) (member : memberData)
    (dayIdx partNum : Nat) (e : Event)
    (h : sEvent lb member dayIdx partNum = some e) :
    ∃ numAhead, getCompletionRank lb member dayIdx partNum = some numAhead ∧
      e = Event.partCompleted member.id member.name dayIdx partNum (numAhead + 1)
        (getTotalStars member (if partNum = 1 then (dayIdx : Int) else -1)) := by
  simp only [sEvent] at h
  cases hr : getCompletionRank lb member dayIdx partNum with
  | none => rw [hr] at h; cases h
  | some n =>
    rw [hr] at h
    exact ⟨n, rfl, (Option.some.injEq _ _ |>.mp h).symm⟩

theorem getCompletionRank_isSome (lb : leaderboardData) (member : memberData)
    (dayIdx partNum : Nat) (day : completionDayData)
    (hlen : ∀ m ∈ lb.members, dayIdx < m.completionDayLevel.length)
    (hslot : member.completionDayLevel[dayIdx]? = some day)
    (hp1 : day.part1.isSome = true)
    (htarget : (partFor day partNum).isSome = true) :
    ∃ n, getCompletionRank lb member dayIdx partNum = some n := by
  obtain ⟨p1, hp1e⟩ := Option.isSome_iff_exists.mp hp1
  by_cases hpn : partNum = 1
  · subst hpn
    obtain ⟨n, hn⟩ := Option.isSome_iff_exists.mp
      (rankCount_isSome lb.members member.id dayIdx 1 p1.gotStarAt hlen)
    exact ⟨n, by simp [getCompletionRank, hslot, hp1e, hn]⟩
  · have hpf : partFor day partNum = day.part2 := by rw [partFor, if_neg hpn]
    rw [hpf] at htarget
    obtain ⟨p2, hp2e⟩ := Option.isSome_iff_exists.mp htarget
    obtain ⟨n, hn⟩ := Option.isSome_iff_exists.mp
      (rankCount_isSome lb.members member.id dayIdx partNum p2.gotStarAt hlen)
    exact ⟨n, by simp [getCompletionRank, hslot, hp1e, hp2e, hpn, hn]⟩

theorem sEvent_isSome (lb : leaderboardData) (member : memberData)
    (dayIdx partNum : Nat) (day : completionDayData)
    (hlen : ∀ m ∈ lb.members, dayIdx < m.completionDayLevel.length)
    (hslot : member.completionDayLevel[dayIdx]? = some day)
    (hp1 : day.part1.isSome = true)
    (htarget : (partFor day partNum).isSome = true) :
    ∃ e, sEvent lb member dayIdx partNum = some e := by
  obtain ⟨n, hn⟩ := getCompletionRank_isSome lb member dayIdx partNum day hlen hslot hp1 htarget
  refine ⟨Event.partCompleted member.id member.name dayIdx partNum (n + 1)
    (getTotalStars member (if partNum = 1 then (dayIdx : Int) else -1)), ?_⟩
  simp [sEvent, hn]

/-! Characterizing the events of the diff loop. -/

theorem partFor_one (day : completionDayData) : partFor day 1 = day.part1 := rfl

theorem partFor_two (day : completionDayData) : partFor day 2 = day.part2 := by
  simp [partFor]

theorem exists_pn_iff (Q : Nat → Prop) :
    (∃ pn, (pn = 1 ∨ pn = 2) ∧ Q pn) ↔ Q 1 ∨ Q 2 := by
  constructor
  · rintro ⟨pn, (rfl | rfl), hq⟩
    · exact Or.inl hq
    · exact Or.inr hq
  · rintro (hq | hq)
    · exact ⟨1, Or.inl rfl, hq⟩
    · exact ⟨2, Or.inr rfl, hq⟩

theorem emittedAtB_eq (member lastMember : memberData) (dayIdx partNum : Nat)
    (day lastDay : completionDayData)
    (hslot : member.completionDayLevel[dayIdx]? = some day)
    (hlast : lastMember.completionDayLevel[dayIdx]? = some lastDay) :
    emittedAtB member lastMember dayIdx partNum =
      ((partFor day partNum).isSome && (partFor lastDay partNum).isNone) := by
  unfold emittedAtB
  rw [hslot, hlast]

theorem partEvents_eq (lb : leaderboardData) (lastMember member : memberData)
    (dayIdx partNum : Nat) (day lastDay : completionDayData)
    (hlen : ∀ m ∈ lb.members, dayIdx < m.completionDayLevel.length)
    (hslot : member.completionDayLevel[dayIdx]? = some day)
    (hlast : lastMember.completionDayLevel[dayIdx]? = some lastDay)
    (hp1 : (partFor day partNum).isSome = true → day.part1.isSome = true) :
    ∃ l, partEvents lb lastMember member dayIdx partNum (partFor day partNum) = some l ∧
      ∀ e, e ∈ l ↔ (emittedAtB member lastMember dayIdx partNum = true ∧
        sEvent lb member dayIdx partNum = some e) := by
  rw [emittedAtB_eq member lastMember dayIdx partNum day lastDay hslot hlast]
  by_cases hc : (partFor day partNum).isSome = true
  · by_cases hl : partFor lastDay partNum = none
    · obtain ⟨ev, hev⟩ := sEvent_isSome lb member dayIdx partNum day hlen hslot (hp1 hc) hc
      refine ⟨[ev], by simp [partEvents, hc, hlast, hl, hev], ?_⟩
      intro e
      constructor
      · intro hmem
        have he : e = ev := List.mem_singleton.mp hmem
        subst he
        exact ⟨by simp [hc, hl], hev⟩
      · rintro ⟨-, hse⟩
        rw [hev] at hse
        exact List.mem_singleton.mpr (Option.some_inj.mp hse).symm
    · refine ⟨[], by simp [partEvents, hc, hlast, hl], ?_⟩
      intro e
      have hnn : (partFor lastDay partNum).isNone = false := by
        rw [Bool.eq_false_iff]
        intro ht
        exact hl (Option.isNone_iff_eq_none.mp ht)
      simp [hnn]
  · refine ⟨[], by simp [partEvents, hc], ?_⟩
    intro e
    have hns : (partFor day partNum).isSome = false := by simpa using hc
    simp [hns]

theorem dayEvents_eq (lb : leaderboardData) (lastMember member : memberData)
    (day lastDay : completionDayData) (dayIdx : Nat)
    (hlen : ∀ m ∈ lb.members, dayIdx < m.completionDayLevel.length)
    (hslot : member.completionDayLevel[dayIdx]? = some day)
    (hlast : lastMember.completionDayLevel[dayIdx]? = some lastDay)
    (hinv : day.part2.isSome = true → day.part1.isSome = true) :
    ∃ evs, dayEvents lb lastMember member day dayIdx = some evs ∧
      ∀ e, e ∈ evs ↔ ∃ pn, (pn = 1 ∨ pn = 2) ∧
        emittedAtB member lastMember dayIdx pn = true ∧
        sEvent lb member dayIdx pn = some e := by
  obtain ⟨l1, hl1, hm1⟩ := partEvents_eq lb lastMember member dayIdx 1 day lastDay
    hlen hslot hlast (by rw [partFor_one]; exact id)
  obtain ⟨l2, hl2, hm2⟩ := partEvents_eq lb lastMember member dayIdx 2 day lastDay
    hlen hslot hlast (by rw [partFor_two]; exact hinv)
  rw [partFor_one] at hl1
  rw [partFor_two] at hl2
  refine ⟨l1 ++ l2, by simp [dayEvents, hl1, hl2], ?_⟩
  intro e
  rw [List.mem_append, exists_pn_iff
    (fun pn => emittedAtB member lastMember dayIdx pn = true ∧
      sEvent lb member dayIdx pn = some e), hm1 e, hm2 e]

theorem diffDaysAux_eq (lb : leaderboardData) (lastMember member : memberData)
    (hlen : Snapshot25 lb)
    (hlast25 : lastMember.completionDayLevel.length = 25)
    (hinvm : ∀ d ∈ member.completionDayLevel, d.part2.isSome = true → d.part1.isSome = true) :
    ∀ (days : List completionDayData) (start : Nat),
      (∀ (j : Nat), j < days.length → days[j]? = member.completionDayLevel[start + j]?) →
      start + days.length ≤ 25 →
      ∃ evs, diffDaysAux lb lastMember member days start = some evs ∧
        ∀ e, e ∈ evs ↔ ∃ dIdx pn, start ≤ dIdx ∧ dIdx < start + days.length ∧
          (pn = 1 ∨ pn = 2) ∧ emittedAtB member lastMember dIdx pn = true ∧
          sEvent lb member dIdx pn = some e := by
  intro days
  induction days with
  | nil =>
    intro start _ _
    refine ⟨[], rfl, ?_⟩
    intro e
    simp only [List.not_mem_nil, false_iff]
    rintro ⟨dIdx, pn, h1, h2, -, -, -⟩
    simp at h2
    omega
  | cons day rest ih =>
    intro start hsuffix hbound
    rw [List.length_cons] at hbound
    have hstart25 : start < 25 := by omega
    have hslot : member.completionDayLevel[start]? = some day := by
      have h0 := hsuffix 0 (by simp)
      simpa using h0.symm
    have hlt : start < lastMember.completionDayLevel.length := by rw [hlast25]; omega
    obtain ⟨lastDay, hlast⟩ := getElemOpt_exists hlt
    have hdaymem : day ∈ member.completionDayLevel := by
      obtain ⟨hl, he⟩ := List.getElem?_eq_some_iff.mp hslot
      exact he ▸ List.getElem_mem hl
    have hlens : ∀ m ∈ lb.members, start < m.completionDayLevel.length := by
      intro m hm
      rw [hlen m hm]
      exact hstart25
    obtain ⟨evs1, hevs1, hm1⟩ := dayEvents_eq lb lastMember member day
      lastDay start hlens hslot hlast (hinvm day hdaymem)
    obtain ⟨evs2, hevs2, hm2⟩ := ih (start + 1)
      (fun j hj => by
        rw [show start + 1 + j = start + (j + 1) by omega]
        have := hsuffix (j + 1) (by simpa using Nat.succ_lt_succ hj)
        simpa using this)
      (by omega)
    refine ⟨evs1 ++ evs2, by simp only [diffDaysAux, hevs1, hevs2], ?_⟩
    intro e
    rw [List.mem_append, hm1 e, hm2 e]
    constructor
    · rintro (⟨pn, hpn, hE, hS⟩ | ⟨dIdx, pn, h1, h2, hpn, hE, hS⟩)
      · exact ⟨start, pn, Nat.le_refl start, by simp, hpn, hE, hS⟩
      · exact ⟨dIdx, pn, by omega, by simp only [List.length_cons]; omega, hpn, hE, hS⟩
    · rintro ⟨dIdx, pn, h1, h2, hpn, hE, hS⟩
      rw [List.length_cons] at h2
      by_cases hd : dIdx = start
      · subst hd
        exact Or.inl ⟨pn, hpn, hE, hS⟩
      · exact Or.inr ⟨dIdx, pn, by omega, by omega, hpn, hE, hS⟩

theorem diffMember_eq (lb : leaderboardData) (lastMember member : memberData)
    (hlen : Snapshot25 lb)
    (hm25 : member.completionDayLevel.length = 25)
    (hlast25 : lastMember.completionDayLevel.length = 25)
    (hinvm : ∀ d ∈ member.completionDayLevel, d.part2.isSome = true → d.part1.isSome = true) :
    ∃ evs, diffMember lb lastMember member = some evs ∧
      ∀ e, e ∈ evs ↔ ∃ dIdx pn, dIdx < 25 ∧ (pn = 1 ∨ pn = 2) ∧
        emittedAtB member lastMember dIdx pn = true ∧
        sEvent lb member dIdx pn = some e := by
  obtain ⟨evs, h1, h2⟩ := diffDaysAux_eq lb lastMember member hlen hlast25 hinvm
    member.completionDayLevel 0 (fun j _ => by simp) (by simp [hm25])
  refine ⟨evs, h1, ?_⟩
  intro e
  rw [h2 e]
  constructor
  · rintro ⟨d, pn, -, hd, hpn, hE, hS⟩
    rw [Nat.zero_add, hm25] at hd
    exact ⟨d, pn, hd, hpn, hE, hS⟩
  · rintro ⟨d, pn, hd, hpn, hE, hS⟩
    exact ⟨d, pn, Nat.zero_le d, by rw [Nat.zero_add, hm25]; exact hd, hpn, hE, hS⟩

theorem refreshDiffAux_eq (lastLb lb : leaderboardData)
    (hlen : Snapshot25 lb) (hlenP : Snapshot25 lastLb) (hinv : PartInvariant lb) :
    ∀ ms : List memberData, (∀ m ∈ ms, m ∈ lb.members) →
      ∃ evs, refreshDiffAux lastLb lb ms = some evs ∧
        ∀ e, e ∈ evs ↔ ∃ m ∈ ms, memberContrib lastLb lb m e := by
  intro ms
  induction ms with
  | nil =>
    intro _
    exact ⟨[], rfl, by simp⟩
  | cons m rest ih =>
    intro hms
    have hmlb : m ∈ lb.members := hms m (List.mem_cons_self m rest)
    obtain ⟨evs2, h2, hmm2⟩ := ih (fun x hx => hms x (List.mem_cons_of_mem m hx))
    obtain ⟨evs1, h1, hmm1⟩ :
        ∃ evs1, (match arrayFind lastLb.members (fun x => x.id == m.id) with
          | none => some [Event.newMember m.id m.name]
          | some lastMember => diffMember lb lastMember m) = some evs1 ∧
          ∀ e, e ∈ evs1 ↔ memberContrib lastLb lb m e := by
      cases hfind : arrayFind lastLb.members (fun x => x.id == m.id) with
      | none =>
        refine ⟨[Event.newMember m.id m.name], rfl, ?_⟩
        intro e
        unfold memberContrib
        rw [hfind]
        simp
      | some lastMember =>
        have hlm : lastMember ∈ lastLb.members := arrayFind_mem hfind
        obtain ⟨evs1, hd, hmem⟩ := diffMember_eq lb lastMember m hlen (hlen m hmlb)
          (hlenP lastMember hlm) (hinv m hmlb)
        refine ⟨evs1, hd, ?_⟩
        intro e
        unfold memberContrib
        rw [hfind]
        exact hmem e
    refine ⟨evs1 ++ evs2, by simp only [refreshDiffAux, h1, h2], ?_⟩
    intro e
    rw [List.mem_append, hmm1 e, hmm2 e]
    constructor
    · rintro (h | h)
      · exact ⟨m, List.mem_cons_self m rest, h⟩
      · obtain ⟨x, hx, hc⟩ := h
        exact ⟨x, List.mem_cons_of_mem m hx, hc⟩
    · rintro ⟨x, hx, hc⟩
      rcases List.mem_cons.mp hx with rfl | hx
      · exact Or.inl hc
      · exact Or.inr ⟨x, hx, hc⟩

theorem refreshDiff_eq (lastLb lb : leaderboardData)
    (hlen : Snapshot25 lb) (hlenP : Snapshot25 lastLb) (hinv : PartInvariant lb) :
    ∃ evs, refreshDiff lastLb lb = some evs ∧
      ∀ e, e ∈ evs ↔ ∃ m ∈ lb.members, memberContrib lastLb lb m e :=
  refreshDiffAux_eq lastLb lb hlen hlenP hinv lb.members (fun _ h => h)

theorem mem_of_getElemOpt {α : Type} {l : List α} {i : Nat} {a : α}
    (h : l[i]? = some a) : a ∈ l := by
  obtain ⟨hl, he⟩ := List.getElem?_eq_some_iff.mp h
  exact he ▸ List.getElem_mem hl

theorem emittedAtB_true_elim (member lastMember : memberData) (dayIdx partNum : Nat)
    (h : emittedAtB member lastMember dayIdx partNum = true) :
    ∃ day lastDay, member.completionDayLevel[dayIdx]? = some day ∧
      lastMember.completionDayLevel[dayIdx]? = some lastDay ∧
      (partFor day partNum).isSome = true ∧ partFor lastDay partNum = none := by
  unfold emittedAtB at h
  cases hs1 : member.completionDayLevel[dayIdx]? with
  | none =>
    simp only [hs1] at h
    exact Bool.noConfusion h
  | some day =>
    cases hs2 : lastMember.completionDayLevel[dayIdx]? with
    | none =>
      simp only [hs1, hs2] at h
      exact Bool.noConfusion h
    | some lastDay =>
      simp only [hs1, hs2, Bool.and_eq_true] at h
      exact ⟨day, lastDay, rfl, rfl, h.1, Option.isNone_iff_eq_none.mp h.2⟩

/-- The Part1 record needed by the rank computation is present whenever
the queried part is present, given the Part2-implies-Part1 invariant. -/
theorem part1_present (lb : leaderboardData) (member : memberData)
    (day : completionDayData) (P : Nat)
    (hinv : PartInvariant lb) (hmem : member ∈ lb.members)
    (hslot : ∃ i : Nat, member.completionDayLevel[i]? = some day)
    (hP : P = 1 ∨ P = 2) (hcs : (partFor day P).isSome = true) :
    day.part1.isSome = true := by
  rcases hP with rfl | rfl
  · rwa [partFor_one] at hcs
  · obtain ⟨i, hi⟩ := hslot
    exact hinv member hmem day (mem_of_getElemOpt hi) (by rwa [partFor_two] at hcs)

/-- Claim C2: for members present in both snapshots, a part-completed
event for a day/part is emitted exactly when that part is populated in
the current slot and empty in the previous slot; in particular diffing a
snapshot against itself emits nothing. -/
theorem claim_C2_diff_iff :
    (∀ (lastLb lb : leaderboardData) (member lastMember : memberData) (D P : Nat),
      Snapshot25 lb → Snapshot25 lastLb → PartInvariant lb → UniqueIds lb →
      member ∈ lb.members →
      arrayFind lastLb.members (fun m => m.id == member.id) = some lastMember →
      D < 25 → (P = 1 ∨ P = 2) →
      ∃ evs, refreshDiff lastLb lb = some evs ∧
        ((∃ r s, Event.partCompleted member.id member.name D P r s ∈ evs) ↔
          emittedAtB member lastMember D P = true)) ∧
    (∀ lb : leaderboardData, Snapshot25 lb → PartInvariant lb → UniqueIds lb →
      refreshDiff lb lb = some []) := by
  constructor
  · intro lastLb lb member lastMember D P hlen hlenP hinv hU hmem hfound hD hP
    obtain ⟨evs, hevs, hiff⟩ := refreshDiff_eq lastLb lb hlen hlenP hinv
    refine ⟨evs, hevs, ?_, ?_⟩
    · rintro ⟨r, s, hin⟩
      obtain ⟨m, hm, hc⟩ := (hiff _).mp hin
      unfold memberContrib at hc
      cases hfind : arrayFind lastLb.members (fun x => x.id == m.id) with
      | none =>
        simp only [hfind] at hc
        exact Event.noConfusion hc
      | some lm =>
        simp only [hfind] at hc
        obtain ⟨dIdx, pn, hd25, hpn, hE, hS⟩ := hc
        obtain ⟨n, hn, hshape⟩ := sEvent_eq_partCompleted lb m dIdx pn _ hS
        injection hshape with h1 h2 h3 h4 h5 h6
        have hmm : m = member := List.inj_on_of_nodup_map hU hm hmem h1.symm
        subst hmm
        rw [hfound] at hfind
        have hlm : lm = lastMember := Option.some_inj.mp hfind.symm
        subst hlm
        subst h3
        subst h4
        exact hE
    · intro hEm
      obtain ⟨day, lastDay, hslot, hlast, hcs, hps⟩ :=
        emittedAtB_true_elim member lastMember D P hEm
      have hp1 : day.part1.isSome = true :=
        part1_present lb member day P hinv hmem ⟨D, hslot⟩ hP hcs
      have hlens : ∀ m ∈ lb.members, D < m.completionDayLevel.length := by
        intro m hm
        rw [hlen m hm]
        exact hD
      obtain ⟨n, hn⟩ := getCompletionRank_isSome lb member D P day hlens hslot hp1 hcs
      refine ⟨n + 1, getTotalStars member (if P = 1 then (D : Int) else -1), ?_⟩
      apply (hiff _).mpr
      refine ⟨member, hmem, ?_⟩
      unfold memberContrib
      rw [hfound]
      exact ⟨D, P, hD, hP, hEm, by simp [sEvent, hn]⟩
  · intro lb hlen hinv hU
    obtain ⟨evs, hevs, hiff⟩ := refreshDiff_eq lb lb hlen hlen hinv
    have hnil : evs = [] := by
      rw [List.eq_nil_iff_forall_not_mem]
      intro e he
      obtain ⟨m, hm, hc⟩ := (hiff e).mp he
      unfold memberContrib at hc
      rw [arrayFind_self hU hm] at hc
      obtain ⟨dIdx, pn, -, -, hE, -⟩ := hc
      obtain ⟨day, lastDay, hs1, hs2, hcs, hps⟩ :=
        emittedAtB_true_elim m m dIdx pn hE
      rw [hs1] at hs2
      have hdd : day = lastDay := Option.some_inj.mp hs2
      subst hdd
      rw [hps] at hcs
      exact Bool.noConfusion hcs
    rw [hnil] at hevs
    exact hevs

/-- Witness for C2: diffing the empty-member-A snapshot against the
both-parts-of-day-5 snapshot emits a Part2 event for day 5, and diffing
the current snapshot against itself emits nothing. -/
theorem claim_C2_diff_iff_witness :
    ∃ evs, refreshDiff lbPrevW lbCurrW = some evs ∧
      (∃ r s, Event.partCompleted memberACurr.id memberACurr.name 4 2 r s ∈ evs) ∧
      refreshDiff lbCurrW lbCurrW = some [] := by
  obtain ⟨evs, hevs, hiff⟩ := claim_C2_diff_iff.1 lbPrevW lbCurrW memberACurr memberAPrev 4 2
    (by decide) (by decide) (by decide) (by decide) (by decide) (by decide) (by decide)
    (Or.inr rfl)
  exact ⟨evs, hevs, hiff.mpr (by decide),
    claim_C2_diff_iff.2 lbCurrW (by decide) (by decide) (by decide)⟩

/-- Claim C3: the star count attached to a Part2 event is the member's
full current star count; the count attached to a Part1 event for a day
whose Part2 is newly completed in the same cycle is the full count minus
one, and otherwise the full count.  The previous snapshot is assumed to
satisfy the Part2-implies-Part1 invariant the source relies on. -/
theorem claim_C3_total_stars (lastLb lb : leaderboardData)
    (member lastMember : memberData) (D P r s : Nat)
    (hlen : Snapshot25 lb) (hlenP : Snapshot25 lastLb)
    (hinv : PartInvariant lb) (hinvP : PartInvariant lastLb) (hU : UniqueIds lb)
    (hmem : member ∈ lb.members)
    (hfound : arrayFind lastLb.members (fun m => m.id == member.id) = some lastMember)
    (evs : List Event) (hevs : refreshDiff lastLb lb = some evs)
    (hin : Event.partCompleted member.id member.name D P r s ∈ evs) :
    (P = 2 → s = starCount member) ∧
    (P = 1 → ((emittedAtB member lastMember D 2 = true → s + 1 = starCount member) ∧
      (emittedAtB member lastMember D 2 = false → s = starCount member))) := by
  obtain ⟨evs', hevs', hiff⟩ := refreshDiff_eq lastLb lb hlen hlenP hinv
  rw [hevs] at hevs'
  have hee : evs' = evs := Option.some_inj.mp hevs'.symm
  subst hee
  obtain ⟨m, hm, hc⟩ := (hiff _).mp hin
  unfold memberContrib at hc
  cases hfind : arrayFind lastLb.members (fun x => x.id == m.id) with
  | none =>
    simp only [hfind] at hc
    exact Event.noConfusion hc
  | some lm =>
    simp only [hfind] at hc
    obtain ⟨dIdx, pn, hd25, hpn, hE, hS⟩ := hc
    obtain ⟨n, hn, hshape⟩ := sEvent_eq_partCompleted lb m dIdx pn _ hS
    injection hshape with h1 h2 h3 h4 h5 h6
    have hmm : m = member := List.inj_on_of_nodup_map hU hm hmem h1.symm
    subst hmm
    rw [hfound] at hfind
    have hlm : lm = lastMember := Option.some_inj.mp hfind.symm
    subst hlm
    subst h3
    subst h4
    constructor
    · rintro rfl
      rw [h6, if_neg (by norm_num)]
      exact getTotalStars_no_skip m
    · rintro rfl
      rw [h6, if_pos rfl]
      constructor
      · intro h2new
        obtain ⟨day, lastDay, hslot, hlast, hcs2, hps2⟩ :=
          emittedAtB_true_elim m lm D 2 h2new
        rw [partFor_two] at hcs2
        exact getTotalStars_skip_some m D day hslot hcs2
      · intro h2not
        obtain ⟨day, lastDay, hslot, hlast, hcs1, hps1⟩ :=
          emittedAtB_true_elim m lm D 1 hE
        rw [partFor_one] at hps1
        have hlmm : lm ∈ lastLb.members := arrayFind_mem hfound
        have hld2 : lastDay.part2 = none := by
          cases hld : lastDay.part2 with
          | none => rfl
          | some p =>
            have hcontra := hinvP lm hlmm lastDay (mem_of_getElemOpt hlast)
              (by rw [hld]; rfl)
            rw [hps1] at hcontra
            exact Bool.noConfusion hcontra
        have heq2 := emittedAtB_eq m lm D 2 day lastDay hslot hlast
        rw [heq2, partFor_two, partFor_two, hld2] at h2not
        simp only [Option.isNone_none, Bool.and_true] at h2not
        apply getTotalStars_skip_absent m D
        intro dd hdd
        rw [hslot] at hdd
        have hdde : day = dd := Option.some_inj.mp hdd
        rw [← hdde]
        exact h2not

/-- Witness for C3: diffing empty member A against both-parts-of-day-5
member A emits a Part1 event carrying one star (the full count two minus
the day's newly completed Part2 star) and a Part2 event carrying the
full count. -/
theorem claim_C3_total_stars_witness :
    ∃ evs, refreshDiff lbPrevW lbCurrW = some evs ∧
      Event.partCompleted memberACurr.id memberACurr.name 4 1 1 1 ∈ evs ∧
      (1 : Nat) + 1 = starCount memberACurr := by
  refine ⟨[Event.partCompleted 1 "A" 4 1 1 1, Event.partCompleted 1 "A" 4 2 1 2],
    by decide, by decide, ?_⟩
  have h := claim_C3_total_stars lbPrevW lbCurrW memberACurr memberAPrev 4 1 1 1
    (by decide) (by decide) (by decide) (by decide) (by decide) (by decide) (by decide)
    [Event.partCompleted 1 "A" 4 1 1 1, Event.partCompleted 1 "A" 4 2 1 2]
    (by decide) (by decide)
  exact (h.2 rfl).1 (by decide)

/-! Counting events per member. -/

theorem refreshDiffAux_append_some (lastLb lb : leaderboardData) (l1 l2 : List memberData)
    (es2 : List Event) (h2 : refreshDiffAux lastLb lb l2 = some es2) :
    ∀ es1, refreshDiffAux lastLb lb l1 = some es1 →
      refreshDiffAux lastLb lb (l1 ++ l2) = some (es1 ++ es2) := by
  induction l1 with
  | nil =>
    intro es1 h1
    simp only [refreshDiffAux] at h1
    have he : es1 = [] := (Option.some_inj.mp h1).symm
    subst he
    simpa using h2
  | cons m rest ih =>
    intro es1 h1
    simp only [refreshDiffAux] at h1
    cases hc : (match arrayFind lastLb.members (fun x => x.id == m.id) with
        | none => some [Event.newMember m.id m.name]
        | some lastMember => diffMember lb lastMember m) with
    | none =>
      cases hr : refreshDiffAux lastLb lb rest with
      | none =>
        simp only [hc, hr] at h1
        exact Option.noConfusion h1
      | some restEs =>
        simp only [hc, hr] at h1
        exact Option.noConfusion h1
    | some es =>
      cases hr : refreshDiffAux lastLb lb rest with
      | none =>
        simp only [hc, hr] at h1
        exact Option.noConfusion h1
      | some restEs =>
        simp only [hc, hr] at h1
        have he : es ++ restEs = es1 := Option.some_inj.mp h1
        subst he
        rw [List.cons_append]
        simp only [refreshDiffAux, hc, ih restEs hr]
        rw [List.append_assoc]

theorem refreshDiffAux_count_other (lastLb lb : leaderboardData)
    (hlen : Snapshot25 lb) (hlenP : Snapshot25 lastLb) (hinv : PartInvariant lb)
    (i : Int) (q : Event → Bool) (ms : List memberData)
    (hms : ∀ m ∈ ms, m ∈ lb.members) (hne : ∀ m ∈ ms, m.id ≠ i)
    (evs : List Event) (hevs : refreshDiffAux lastLb lb ms = some evs) :
    evs.countP (fun e => e.ownerId == i && q e) = 0 := by
  rw [List.countP_eq_zero]
  intro e he
  obtain ⟨evs', hevs', hiff⟩ := refreshDiffAux_eq lastLb lb hlen hlenP hinv ms hms
  have hee : evs' = evs := Option.some_inj.mp (hevs'.symm.trans hevs)
  subst hee
  obtain ⟨m, hm, hc⟩ := (hiff e).mp he
  have hown : e.ownerId = m.id := by
    unfold memberContrib at hc
    cases hfind : arrayFind lastLb.members (fun x => x.id == m.id) with
    | none =>
      simp only [hfind] at hc
      rw [hc]
      rfl
    | some lm =>
      simp only [hfind] at hc
      obtain ⟨dIdx, pn, -, -, -, hS⟩ := hc
      obtain ⟨n, -, hshape⟩ := sEvent_eq_partCompleted lb m dIdx pn e hS
      rw [hshape]
      rfl
  intro hpq
  rw [Bool.and_eq_true] at hpq
  have hei : e.ownerId = i := beq_iff_eq.mp hpq.1
  exact hne m hm (hown ▸ hei)

/-- Claim C5: a member absent from the previous snapshot and present in
the current one yields exactly one new-member event and zero
part-completed events for that member, regardless of its populated
days. -/
theorem claim_C5_new_member (lastLb lb : leaderboardData) (member : memberData)
    (hlen : Snapshot25 lb) (hlenP : Snapshot25 lastLb) (hinv : PartInvariant lb)
    (hU : UniqueIds lb) (hmem : member ∈ lb.members)
    (hnew : arrayFind lastLb.members (fun m => m.id == member.id) = none) :
    ∃ evs, refreshDiff lastLb lb = some evs ∧
      evs.countP (fun e => e.ownerId == member.id && e.isNewMemberEvent) = 1 ∧
      evs.countP (fun e => e.ownerId == member.id && e.isPartCompletedEvent) = 0 := by
  obtain ⟨s, t, hsplit⟩ := List.append_of_mem hmem
  have hUids : ((s.map memberData.id) ++ member.id :: t.map memberData.id).Nodup := by
    have := hU
    unfold UniqueIds at this
    rw [hsplit, List.map_append, List.map_cons] at this
    exact this
  have hdisj := (List.nodup_append.mp hUids).2.2
  have hnodupCons := (List.nodup_append.mp hUids).2.1
  have hnotinS : member.id ∉ s.map memberData.id := by
    intro hin
    exact hdisj hin (List.mem_cons_self _ _)
  have hnotinT : member.id ∉ t.map memberData.id := (List.nodup_cons.mp hnodupCons).1
  have hneS : ∀ m ∈ s, m.id ≠ member.id := by
    intro m hm he
    exact hnotinS (he ▸ List.mem_map_of_mem memberData.id hm)
  have hneT : ∀ m ∈ t, m.id ≠ member.id := by
    intro m hm he
    exact hnotinT (he ▸ List.mem_map_of_mem memberData.id hm)
  have hmsS : ∀ m ∈ s, m ∈ lb.members := by
    intro m hm
    rw [hsplit]
    exact List.mem_append_left _ hm
  have hmsT : ∀ m ∈ t, m ∈ lb.members := by
    intro m hm
    rw [hsplit]
    exact List.mem_append_right _ (List.mem_cons_of_mem _ hm)
  obtain ⟨es1, hes1, -⟩ := refreshDiffAux_eq lastLb lb hlen hlenP hinv s hmsS
  obtain ⟨es2, hes2, -⟩ := refreshDiffAux_eq lastLb lb hlen hlenP hinv t hmsT
  have hchunk : refreshDiffAux lastLb lb (member :: t) =
      some ([Event.newMember member.id member.name] ++ es2) := by
    simp only [refreshDiffAux, hnew, hes2]
  have hall : refreshDiff lastLb lb =
      some (es1 ++ ([Event.newMember member.id member.name] ++ es2)) := by
    unfold refreshDiff
    rw [hsplit]
    exact refreshDiffAux_append_some lastLb lb s (member :: t) _ hchunk es1 hes1
  have hc1 := refreshDiffAux_count_other lastLb lb hlen hlenP hinv member.id
    Event.isNewMemberEvent s hmsS hneS es1 hes1
  have hc2 := refreshDiffAux_count_other lastLb lb hlen hlenP hinv member.id
    Event.isNewMemberEvent t hmsT hneT es2 hes2
  have hc3 := refreshDiffAux_count_other lastLb lb hlen hlenP hinv member.id
    Event.isPartCompletedEvent s hmsS hneS es1 hes1
  have hc4 := refreshDiffAux_count_other lastLb lb hlen hlenP hinv member.id
    Event.isPartCompletedEvent t hmsT hneT es2 hes2
  refine ⟨_, hall, ?_, ?_⟩
  · rw [List.countP_append, List.countP_append, hc1, hc2]
    simp [List.countP_cons, Event.ownerId, Event.isNewMemberEvent]
  · rw [List.countP_append, List.countP_append, hc3, hc4]
    simp [List.countP_cons, Event.ownerId, Event.isPartCompletedEvent]

/-- Witness for C5: member B is absent from the previous snapshot and
present with a populated day in the current one; B gets exactly one
new-member event and no part-completed events. -/
theorem claim_C5_new_member_witness :
    ∃ evs, refreshDiff lbPrevW lbW = some evs ∧
      evs.countP (fun e => e.ownerId == memberBW.id && e.isNewMemberEvent) = 1 ∧
      evs.countP (fun e => e.ownerId == memberBW.id && e.isPartCompletedEvent) = 0 :=
  claim_C5_new_member lbPrevW lbW memberBW (by decide) (by decide) (by decide)
    (by decide) (by decide) (by decide)

/-! First-run behaviour and cycle control flow. -/

/-- Claim C4 counterexample: on a first run (no cached body) with a
current snapshot of three members, the cycle emits no events at all —
in particular not three new-member events. -/
theorem claim_C4_counterexample :
    buildW3 "curr" = Except.ok lbW3 ∧ lbW3.members.length = 3 ∧
      refreshCycleEvents buildW3 "" "curr" = [] :=
  ⟨rfl, rfl, rfl⟩

/-- Claim C4 (amended): on a first run, when no previous cached body
exists, `refresh` caches the downloaded body and returns before
diffing: no events of any kind are emitted (neither new-member nor
part-completed), whatever the parser returns for the downloaded body. -/
theorem claim_C4_first_run (build : String → Except String leaderboardData)
    (currBody : String) : refreshCycleEvents build "" currBody = [] := rfl

/-- Claim C9: in every cycle whose download succeeds, the cache save of
the downloaded body is in the trace, and it precedes any parse of the
cached previous document, so a parse failure of the cached document
never prevents the cache from holding the new document. -/
theorem claim_C9_cache_before_parse (build : String → Except String leaderboardData)
    (lastBody currBody : String) :
    Action.saveCache currBody ∈ refreshTrace build lastBody currBody ∧
    ∀ (i : Nat) (b : String),
      (refreshTrace build lastBody currBody)[i]? = some (Action.parseCached b) →
      ∃ j, j < i ∧
        (refreshTrace build lastBody currBody)[j]? = some (Action.saveCache currBody) := by
  constructor
  · unfold refreshTrace
    exact List.mem_cons_self _ _
  · intro i b hi
    refine ⟨0, ?_, by unfold refreshTrace; simp⟩
    cases i with
    | zero =>
      unfold refreshTrace at hi
      simp at hi
    | succ n => omega

/-- Witness for C9: with a failing parser and a present cached body, the
parse of the cached body sits at index 1 and the cache save at index 0. -/
theorem claim_C9_cache_before_parse_witness :
    Action.saveCache "curr" ∈ refreshTrace buildErr "x" "curr" ∧
      ∃ j, j < 1 ∧ (refreshTrace buildErr "x" "curr")[j]? = some (Action.saveCache "curr") :=
  ⟨(claim_C9_cache_before_parse buildErr "x" "curr").1,
    (claim_C9_cache_before_parse buildErr "x" "curr").2 1 "x" (by decide)⟩

/-- Claim C10: a daemonized cycle with a successful download always ends
with the in-memory previous body replaced by the downloaded body —
including when parsing the cached body or the downloaded body fails and
the cycle aborts with no events — and consequently a completion already
recorded in the body downloaded by such an aborted cycle is not reported
by a later cycle that diffs against that body. -/
theorem claim_C10_deferred_body :
    (∀ (build : String → Except String leaderboardData) (st : ScannerState)
        (currBody : String),
      (refreshDaemonStep build st currBody).1.lastBody = currBody) ∧
    (∀ (build : String → Except String leaderboardData) (st : ScannerState)
        (currBody : String), (∀ l, build st.lastBody ≠ Except.ok l) →
      (refreshDaemonStep build st currBody).2 = []) ∧
    (∀ (build : String → Except String leaderboardData) (st : ScannerState)
        (currBody : String), (∀ l, build currBody ≠ Except.ok l) →
      (refreshDaemonStep build st currBody).2 = []) ∧
    (∀ (build : String → Except String leaderboardData) (st : ScannerState)
        (b2 : String) (lb1 lb2 : leaderboardData) (member lastMember : memberData)
        (D P : Nat) (lastDay : completionDayData),
      build st.lastBody = Except.ok lb1 → build b2 = Except.ok lb2 →
      Snapshot25 lb2 → Snapshot25 lb1 → PartInvariant lb2 → UniqueIds lb2 →
      member ∈ lb2.members →
      arrayFind lb1.members (fun m => m.id == member.id) = some lastMember →
      lastMember.completionDayLevel[D]? = some lastDay →
      (partFor lastDay P).isSome = true →
      ∀ name r s, Event.partCompleted member.id name D P r s ∉
        (refreshDaemonStep build st b2).2) := by
  refine ⟨fun build st currBody => rfl, ?_, ?_, ?_⟩
  · intro build st currBody hfail
    show refreshCycleEvents build st.lastBody currBody = []
    unfold refreshCycleEvents
    by_cases h0 : st.lastBody.length = 0
    · rw [if_pos h0]
    · rw [if_neg h0]
      cases hb : build st.lastBody with
      | error e => rfl
      | ok l => exact absurd hb (hfail l)
  · intro build st currBody hfail
    show refreshCycleEvents build st.lastBody currBody = []
    unfold refreshCycleEvents
    by_cases h0 : st.lastBody.length = 0
    · rw [if_pos h0]
    · rw [if_neg h0]
      cases hb : build st.lastBody with
      | error e => rfl
      | ok lastLb =>
        cases hb2 : build currBody with
        | error e => rfl
        | ok l => exact absurd hb2 (hfail l)
  · intro build st b2 lb1 lb2 member lastMember D P lastDay hb1 hb2 hS2 hS1 hInv hU
      hmem hfound hlast hsome name r s hin
    have hin' : Event.partCompleted member.id name D P r s ∈
        refreshCycleEvents build st.lastBody b2 := hin
    unfold refreshCycleEvents at hin'
    by_cases h0 : st.lastBody.length = 0
    · rw [if_pos h0] at hin'
      exact List.not_mem_nil _ hin'
    · rw [if_neg h0] at hin'
      obtain ⟨evs, hevs, hiff⟩ := refreshDiff_eq lb1 lb2 hS2 hS1 hInv
      simp only [hb1, hb2, hevs, Option.getD_some] at hin'
      obtain ⟨m, hm, hc⟩ := (hiff _).mp hin'
      unfold memberContrib at hc
      cases hfind : arrayFind lb1.members (fun x => x.id == m.id) with
      | none =>
        simp only [hfind] at hc
        exact Event.noConfusion hc
      | some lm =>
        simp only [hfind] at hc
        obtain ⟨dIdx, pn, hd25, hpn, hE, hS⟩ := hc
        obtain ⟨n, hn, hshape⟩ := sEvent_eq_partCompleted lb2 m dIdx pn _ hS
        injection hshape with h1 h2 h3 h4 h5 h6
        have hmm : m = member := List.inj_on_of_nodup_map hU hm hmem h1.symm
        subst hmm
        rw [hfound] at hfind
        have hlm : lm = lastMember := Option.some_inj.mp hfind.symm
        subst hlm
        subst h3
        subst h4
        obtain ⟨day, lastDayE, hs1, hs2, hcs, hps⟩ := emittedAtB_true_elim m lm D P hE
        rw [hlast] at hs2
        have hld : lastDayE = lastDay := (Option.some_inj.mp hs2).symm
        subst hld
        rw [hps] at hsome
        simp at hsome

/-- Witness for C10: the parser fails on the cached body "bad", so the
first cycle emits nothing yet still replaces the in-memory body with the
downloaded "body1"; the second cycle diffs "body1" against "body2",
both of which carry member A's day-5 Part1 star, so A's day-5 Part1
completion is never reported. -/
theorem claim_C10_deferred_body_witness :
    (refreshDaemonStep buildTwo { lastBody := "bad" } "body1").1.lastBody = "body1" ∧
    (refreshDaemonStep buildTwo { lastBody := "bad" } "body1").2 = [] ∧
    Event.partCompleted memberACurr.id "A" 4 1 1 2 ∉
      (refreshDaemonStep buildTwo { lastBody := "body1" } "body2").2 := by
  refine ⟨claim_C10_deferred_body.1 buildTwo _ _, claim_C10_deferred_body.2.1 buildTwo _ _ ?_,
    claim_C10_deferred_body.2.2.2 buildTwo { lastBody := "body1" } "body2" lbCurrW lbCurrW
      memberACurr memberACurr 4 1 day5Both ?_ ?_ (by decide) (by decide) (by decide)
      (by decide) (by decide) (by decide) (by decide) (by decide) "A" 1 2⟩
  · intro l h
    rw [show buildTwo "bad" = Except.error "parse error" from rfl] at h
    exact Except.noConfusion h
  · rfl
  · rfl

/-! The parser. -/

theorem fillDays_length (fields : List (String × Json)) :
    ∀ table table' : List completionDayData, fillDays fields table = Except.ok table' →
      table'.length = table.length := by
  induction fields with
  | nil =>
    intro table table' h
    simp only [fillDays] at h
    injection h with h'
    rw [h']
  | cons kv rest ih =>
    intro table table' h
    obtain ⟨key, dayVal⟩ := kv
    simp only [fillDays] at h
    split at h
    · have := ih _ _ h
      rw [this, List.length_set]
    · exact Except.noConfusion h

theorem visitMember_length (v : Json) (m : memberData)
    (h : visitMember v = Except.ok m) : m.completionDayLevel.length = 25 := by
  unfold visitMember at h
  cases hf : fillDays (completionFieldsOf v) (List.replicate 25 {}) with
  | error e =>
    rw [hf] at h
    exact Except.noConfusion h
  | ok table =>
    rw [hf] at h
    injection h with h'
    rw [← h']
    have := fillDays_length (completionFieldsOf v) _ _ hf
    simpa using this

theorem visitMembers_length (fields : List (String × Json)) :
    ∀ ms : List memberData, visitMembers fields = Except.ok ms →
      ∀ m ∈ ms, m.completionDayLevel.length = 25 := by
  induction fields with
  | nil =>
    intro ms h
    simp only [visitMembers] at h
    injection h with h'
    rw [← h']
    simp
  | cons kv rest ih =>
    intro ms h
    obtain ⟨key, v⟩ := kv
    simp only [visitMembers] at h
    cases hv : visitMember v with
    | error e =>
      rw [hv] at h
      exact Except.noConfusion h
    | ok m0 =>
      rw [hv] at h
      cases hr : visitMembers rest with
      | error e =>
        rw [hr] at h
        exact Except.noConfusion h
      | ok ms0 =>
        rw [hr] at h
        injection h with h'
        rw [← h']
        intro m hm
        rcases List.mem_cons.mp hm with rfl | hm
        · exact visitMember_length v m hv
        · exact ih ms0 hr m hm

/-- Claim C7: every member of every snapshot the parser successfully
returns has a completion table of exactly 25 slots, so day lookups for
indices 0..24 are always in bounds. -/
theorem claim_C7_table_25 (body : Option Json) (lb : leaderboardData)
    (h : buildLeaderboard body = Except.ok lb) :
    ∀ m ∈ lb.members, m.completionDayLevel.length = 25 := by
  cases body with
  | none => exact Except.noConfusion h
  | some j =>
    simp only [buildLeaderboard] at h
    cases hu : unmarshalLeaderboardData j with
    | error e =>
      rw [hu] at h
      exact Except.noConfusion h
    | ok lb0 =>
      rw [hu] at h
      cases hv : visitMembers (memberFieldsOf j) with
      | error e =>
        rw [hv] at h
        exact Except.noConfusion h
      | ok ms =>
        rw [hv] at h
        injection h with h'
        rw [← h']
        simpa using visitMembers_length (memberFieldsOf j) ms hv

/-- Witness for C7: parsing the one-member document `jW` succeeds and
the member's table has 25 slots even though only day 3 was populated. -/
theorem claim_C7_table_25_witness :
    buildLeaderboard (some jW) = Except.ok lbW7 ∧
      ∀ m ∈ lbW7.members, m.completionDayLevel.length = 25 :=
  ⟨by rfl, claim_C7_table_25 (some jW) lbW7 (by rfl)⟩

/-- Claim C6 counterexample: the well-formed document with no fields at
all lacks every expected top-level field, yet the parser succeeds with
the zero snapshot instead of failing. -/
theorem claim_C6_counterexample :
    buildLeaderboard (some (Json.obj [])) = Except.ok ({} : leaderboardData) := rfl

/-- Claim C6 (amended): the parser fails when the raw bytes are not
well-formed structured data, and whenever it fails the caller receives
only an error, never a snapshot (all-or-nothing); a well-formed
document whose top-level shape merely lacks the expected fields does
not fail: it parses successfully with zero values. -/
theorem claim_C6_parse_errors (body : Option Json) :
    (body = none → ∃ msg, buildLeaderboard body = Except.error msg) ∧
    (∀ msg, buildLeaderboard body = Except.error msg →
      ∀ lb, buildLeaderboard body ≠ Except.ok lb) ∧
    buildLeaderboard (some (Json.obj [])) = Except.ok ({} : leaderboardData) := by
  refine ⟨?_, ?_, rfl⟩
  · rintro rfl
    exact ⟨_, rfl⟩
  · intro msg hmsg lb hok
    rw [hmsg] at hok
    exact Except.noConfusion hok

/-- Witness for C6 (amended): malformed bytes make the parser fail. -/
theorem claim_C6_parse_errors_witness :
    ∃ msg, buildLeaderboard none = Except.error msg :=
  (claim_C6_parse_errors none).1 rfl

end AocScanner
